import Mathlib

/-!
Shallow embedding of `src/gpa.py` (transcript GPA calculator).

Strings are modelled as `List Char`; Python floats are modelled as exact
rationals (`ℚ`).  The regular-expression substitutions and the extraction
scan are embedded with Python `re` leftmost, non-overlapping, backtracking
semantics on the ASCII fragment of the relevant character classes.
-/

namespace GpaCalc

/-- Python `\w` (ASCII fragment): letter, digit or underscore. -/
def isWordChar (c : Char) : Bool := c.isAlpha || c.isDigit || c = '_'

/-- Python `\s` (ASCII fragment): space, tab, newline, carriage return,
vertical tab, form feed. -/
def isSpaceChar (c : Char) : Bool :=
  c = ' ' || c = '\t' || c = '\n' || c = '\r' || c = '\x0b' || c = '\x0c'

/-- The class `[A-Za-z0-9]` of the course-code token. -/
def isAlnumChar (c : Char) : Bool := c.isAlpha || c.isDigit

/-- The class `[A-Za-z0-9.]` of the grade token. -/
def isGradeChar (c : Char) : Bool := c.isAlpha || c.isDigit || c = '.'

/-- `re.sub(r'(\w+)-\n(\w+)', r'\1\2', text)` (gpa.py line 88): join
hyphenated line breaks.  A match at a position is a maximal word run
followed by `-`, a newline, and a further word run; the replacement drops
the hyphen and the newline.  Fuel starts at the list length, which bounds
the number of scan steps. -/
def dehyphenateAux : Nat → List Char → List Char
  | 0, l => l
  | _, [] => []
  | n + 1, c :: rest =>
    if isWordChar c then
      let r := List.takeWhile isWordChar (c :: rest)
      match List.drop r.length (c :: rest) with
      | '-' :: '\n' :: d :: tl =>
        if isWordChar d then
          let r2 := List.takeWhile isWordChar (d :: tl)
          r ++ r2 ++ dehyphenateAux n (List.drop r2.length (d :: tl))
        else c :: dehyphenateAux n rest
      | _ => c :: dehyphenateAux n rest
    else c :: dehyphenateAux n rest

def dehyphenate (l : List Char) : List Char := dehyphenateAux l.length l

/-- `re.sub(r'\n', ' ', text)` (gpa.py line 89): replace newlines with
spaces. -/
def collapseNewlines (l : List Char) : List Char :=
  l.map (fun c => if c = '\n' then ' ' else c)

/-- Group boundary for `(\d\w{4,})([A-Za-z])` at a digit followed by the
maximal word run `r`: greedy matching picks the largest `k < r.length` with
`4 ≤ k` and `r[k]` a letter, so group 1 is the digit plus the first `k`
characters of `r` and group 2 is `r[k]`.  (The character after the maximal
run is not a word character, hence not a letter, so group 2 always lies
inside the run.) -/
def findRepairIndex (r : List Char) : Option Nat :=
  (List.range r.length).foldl
    (fun acc k =>
      if 4 ≤ k then (if (r.getD k ' ').isAlpha then some k else acc) else acc)
    none

/-- `re.sub(r'(\d\w{4,})([A-Za-z])', r'\1 \2', text)` (gpa.py line 90):
insert a space after course-code-like tokens. -/
def spaceAfterCodesAux : Nat → List Char → List Char
  | 0, l => l
  | _, [] => []
  | n + 1, c :: rest =>
    if c.isDigit then
      let r := List.takeWhile isWordChar rest
      match findRepairIndex r with
      | some k =>
        c :: (r.take k ++ ' ' :: r.getD k ' ' ::
          spaceAfterCodesAux n (r.drop (k + 1) ++ List.drop r.length rest))
      | none => c :: spaceAfterCodesAux n rest
    else c :: spaceAfterCodesAux n rest

def spaceAfterCodes (l : List Char) : List Char :=
  spaceAfterCodesAux l.length l

/-- `preprocess_text` (gpa.py lines 73-91): the three cleanup passes in
source order. -/
def preprocess_text (l : List Char) : List Char :=
  spaceAfterCodes (collapseNewlines (dehyphenate l))

/-- Numeric value of a digit string. -/
def natOfDigits (l : List Char) : Nat :=
  l.foldl (fun a c => 10 * a + (c.toNat - 48)) 0

/-- Python `float()` on the strings that can reach it from the extraction
regex (classes `[A-Za-z0-9.]+` and `\d+\.\d+|\d+`, so no sign, whitespace
or underscore can occur): digits with an optional decimal point and an
optional `e`/`E` exponent.  Exact-rational idealization of the float value;
the IEEE special spellings are outside the rational model. -/
def parseFloat (l : List Char) : Option ℚ :=
  let d1 := l.takeWhile Char.isDigit
  let r1 := l.drop d1.length
  let cont : ℚ → List Char → Option ℚ := fun m r =>
    match r with
    | [] => some m
    | e :: r2 =>
      if e = 'e' ∨ e = 'E' then
        let de := r2.takeWhile Char.isDigit
        if de.isEmpty then none
        else if r2.drop de.length = ([] : List Char) then
          some (m * (10 : ℚ) ^ natOfDigits de)
        else none
      else none
  match r1 with
  | '.' :: r2 =>
    let d2 := r2.takeWhile Char.isDigit
    if d1.isEmpty && d2.isEmpty then none
    else
      cont ((natOfDigits d1 : ℚ) + (natOfDigits d2 : ℚ) / (10 : ℚ) ^ d2.length)
        (r2.drop d2.length)
  | _ => if d1.isEmpty then none else cont (natOfDigits d1 : ℚ) r1

/-- `convert_to_us_gpa` (gpa.py lines 49-70). -/
def convert_to_us_gpa (grade : ℚ) : ℚ :=
  if grade ≥ 9 then 4.0
  else if grade ≥ 8 then 3.7
  else if grade ≥ 7 then 3.0
  else if grade ≥ 6 then 2.0
  else if grade ≥ 5.5 then 1.0
  else 0.0

/-- A raw tuple produced by `regular_pattern.findall` (gpa.py lines 38-40):
course code, name, date, grade and credits, all as strings. -/
structure Candidate where
  code : List Char
  name : List Char
  date : List Char
  grade : List Char
  credits : List Char
deriving DecidableEq, Repr

/-- The `\d{2}-\d{2}-\d{4}` date component of `regular_pattern`: returns
the ten matched characters and the remainder. -/
def matchDate (l : List Char) : Option (List Char × List Char) :=
  match l with
  | d1 :: d2 :: h1 :: d3 :: d4 :: h2 :: y1 :: y2 :: y3 :: y4 :: rest =>
    if d1.isDigit && d2.isDigit && h1 = '-' && d3.isDigit && d4.isDigit
        && h2 = '-' && y1.isDigit && y2.isDigit && y3.isDigit && y4.isDigit then
      some ([d1, d2, h1, d3, d4, h2, y1, y2, y3, y4], rest)
    else none
  | _ => none

/-- The `(\d+\.\d+|\d+)` credits component: the first alternative needs a
maximal digit run, a dot and at least one further digit; otherwise the
match falls back to the bare digit run. -/
def matchCredits (l : List Char) : Option (List Char × List Char) :=
  let d1 := l.takeWhile Char.isDigit
  if d1.isEmpty then none
  else
    match l.drop d1.length with
    | '.' :: r2 =>
      let d2 := r2.takeWhile Char.isDigit
      if d2.isEmpty then some (d1, l.drop d1.length)
      else some (d1 ++ '.' :: d2, r2.drop d2.length)
    | r1 => some (d1, r1)

/-- The `\s+([A-Za-z0-9.]+)\s+(\d+\.\d+|\d+)` tail after the date: each
greedy run is maximal because the following component starts with a
disjoint character class, so no backtracking alternative can succeed. -/
def matchAfterDate (l : List Char) : Option (List Char × List Char × List Char) :=
  let ws2 := l.takeWhile isSpaceChar
  if ws2.isEmpty then none
  else
    let r1 := l.drop ws2.length
    let g := r1.takeWhile isGradeChar
    if g.isEmpty then none
    else
      let r2 := r1.drop g.length
      let ws3 := r2.takeWhile isSpaceChar
      if ws3.isEmpty then none
      else (matchCredits (r2.drop ws3.length)).map (fun p => (g, p.1, p.2))

/-- Date-grade-credits tail attempted at one position of the non-greedy
name scan: returns (date, grade, credits, rest). -/
def matchDateTail (l : List Char) :
    Option (List Char × List Char × List Char × List Char) :=
  (matchDate l).bind fun p =>
    (matchAfterDate p.2).map fun q => (p.1, q.1, q.2.1, q.2.2)

/-- The non-greedy `(.*?)` name capture: grow the name one character at a
time (never across a newline, since `.` excludes it) until the
date-grade-credits tail matches.  Returns (name, date, grade, credits,
rest). -/
def searchName :
    List Char → List Char →
    Option (List Char × List Char × List Char × List Char × List Char)
  | _, [] => none
  | acc, c :: tl =>
    match matchDateTail (c :: tl) with
    | some r => some (acc, r.1, r.2.1, r.2.2.1, r.2.2.2)
    | none => if c = '\n' then none else searchName (acc ++ [c]) tl

/-- One anchored attempt of `regular_pattern` at the head of `l`
(gpa.py lines 38-40): a maximal alphanumeric run of length at least five,
mandatory whitespace, then the non-greedy name scan for the tail.  Returns
the captured tuple and the text after the match. -/
def matchAt (l : List Char) : Option (Candidate × List Char) :=
  let r1 := l.takeWhile isAlnumChar
  if r1.length < 5 then none
  else
    let t1 := l.drop r1.length
    let ws1 := t1.takeWhile isSpaceChar
    if ws1.isEmpty then none
    else
      (searchName [] (t1.drop ws1.length)).map fun r =>
        (⟨r1, r.1, r.2.1, r.2.2.1, r.2.2.2.1⟩, r.2.2.2.2)

/-- `regular_pattern.findall(text)`: leftmost non-overlapping scan.  Fuel
starts at the list length; a successful match always consumes at least one
character, so the fuel never runs out. -/
def findAllAux : Nat → List Char → List Candidate
  | 0, _ => []
  | _, [] => []
  | n + 1, l@(_ :: rest) =>
    match matchAt l with
    | some (cand, after) => cand :: findAllAux n after
    | none => findAllAux n rest

def findAll (l : List Char) : List Candidate := findAllAux l.length l

/-- An included course as appended to `included_courses`: identifier
string, date string, grade and credits. -/
structure CourseRecord where
  identifier : List Char
  date : List Char
  grade : ℚ
  credits : ℚ
deriving DecidableEq, Repr

/-- The run-level accumulator (gpa.py lines 42-46). -/
structure AggState where
  total_weighted_grades : ℚ
  total_credits : ℚ
  total_ects : ℚ
  included_courses : List CourseRecord
deriving DecidableEq, Repr

/-- The initial accumulator values (gpa.py lines 42-46). -/
def initState : AggState := ⟨0, 0, 0, []⟩

/-- The shared accumulation step (gpa.py lines 102-105 and 132-137):
append the record and add its contributions to all three totals. -/
def foldRecord (s : AggState) (r : CourseRecord) : AggState :=
  { total_weighted_grades := s.total_weighted_grades + r.grade * r.credits
    total_credits := s.total_credits + r.credits
    total_ects := s.total_ects + r.credits
    included_courses := s.included_courses ++ [r] }

/-- Per-candidate body of the extraction loop (gpa.py lines 121-139):
parse grade and credits as floats (a `ValueError` skips the candidate),
skip candidates with fewer than 5 credits, otherwise accumulate the record
with identifier `course + " " + name`. -/
def acceptStep (s : AggState) (c : Candidate) : AggState :=
  match parseFloat c.grade, parseFloat c.credits with
  | some g, some cr =>
    if cr < 5 then s
    else foldRecord s ⟨c.code ++ ' ' :: c.name, c.date, g, cr⟩
  | _, _ => s

/-- A caller-supplied manual course tuple (gpa.py lines 94-98). -/
structure ManualEntry where
  course : List Char
  date : List Char
  grade : ℚ
  credits : ℚ
deriving DecidableEq, Repr

/-- Body of the manual-course loop (gpa.py lines 101-105): accumulate the
tuple verbatim, with no parsing and no credit-threshold check. -/
def addManual (s : AggState) (m : ManualEntry) : AggState :=
  foldRecord s ⟨m.course, m.date, m.grade, m.credits⟩

/-- The concrete `manual_courses` list active in the source
(gpa.py lines 94-98). -/
def manual_courses : List ManualEntry :=
  [⟨"01 ".toList, "01-01-2024".toList, 10.0, 6.0⟩]

/-- The section-boundary marker (gpa.py line 116). -/
def marker : List Char := "Grades Final examination".toList

/-- Split `l` at the first occurrence of `m`: `some (before, after)` when
`m` occurs as a substring, `none` otherwise. -/
def splitFirst (m : List Char) : List Char → Option (List Char × List Char)
  | [] => if m.isEmpty then some ([], []) else none
  | c :: rest =>
    if m.isPrefixOf (c :: rest) then some ([], (c :: rest).drop m.length)
    else (splitFirst m rest).map (fun p => (c :: p.1, p.2))

/-- The prefix of `l` before the first occurrence of `m` (all of `l` when
`m` does not occur): models the next `split` segment boundary. -/
def takeBefore (m l : List Char) : List Char :=
  match splitFirst m l with
  | some p => p.1
  | none => l

/-- Lines 116-117 of gpa.py: `if marker in text: text = text.split(marker)[1]`.
Python `split` is a left-to-right non-overlapping split, so element 1 is
the text between the end of the first marker occurrence and the start of
the next occurrence (or the end of the string). -/
def scanRegion (t : List Char) : List Char :=
  match splitFirst marker t with
  | some p => takeBefore marker p.2
  | none => t

/-- Per-page processing after text extraction (gpa.py lines 112-139):
preprocess, restrict to the region after the marker, scan for candidates
and fold them through the filter. -/
def processNormalized (s : AggState) (t : List Char) : AggState :=
  (findAll (scanRegion t)).foldl acceptStep s

def processPage (s : AggState) (raw : List Char) : AggState :=
  processNormalized s (preprocess_text raw)

/-- The whole script run (gpa.py lines 100-139) over a given page sequence:
manual courses are folded in first, then every page is processed in order. -/
def runPipeline (manual : List ManualEntry) (pages : List (List Char)) : AggState :=
  pages.foldl processPage (manual.foldl addManual initState)

/-- The terminal outcome of the script (gpa.py lines 146-153): either a
report of total ECTS, European GPA and US GPA, or the explicit
no-valid-courses outcome. -/
inductive FinalResult where
  | report (totalEcts europeanGpa usGpa : ℚ)
  | noData
deriving DecidableEq, Repr

/-- The finalize block (gpa.py lines 146-153): guard on
`total_credits > 0`, divide only inside the guard, map the aggregate
European GPA to the US scale. -/
def finalize (s : AggState) : FinalResult :=
  if s.total_credits > 0 then
    FinalResult.report s.total_ects
      (s.total_weighted_grades / s.total_credits)
      (convert_to_us_gpa (s.total_weighted_grades / s.total_credits))
  else FinalResult.noData

/-- The fold of the GpaAggregator contract: a left fold of `foldRecord`
over a list of accepted records. -/
def foldRecords (s : AggState) (l : List CourseRecord) : AggState :=
  l.foldl foldRecord s

/-! ### Helper lemmas -/

lemma splitFirst_eq_append (m : List Char) :
    ∀ (l pre post : List Char),
      splitFirst m l = some (pre, post) → l = pre ++ m ++ post := by
  intro l
  induction l with
  | nil =>
    intro pre post h
    unfold splitFirst at h
    by_cases hm : m.isEmpty
    · rw [if_pos hm] at h
      obtain ⟨h1, h2⟩ := Prod.mk.injEq .. ▸ Option.some.injEq .. ▸ h
      simp_all [List.isEmpty_iff]
    · rw [if_neg hm] at h
      exact absurd h (by simp)
  | cons c rest ih =>
    intro pre post h
    unfold splitFirst at h
    by_cases hp : m.isPrefixOf (c :: rest)
    · rw [if_pos hp] at h
      obtain ⟨hpre, hpost⟩ : ([] : List Char) = pre ∧ (c :: rest).drop m.length = post := by
        have := h
        simp only [Option.some.injEq, Prod.mk.injEq] at this
        exact this
      obtain ⟨t, ht⟩ : m <+: c :: rest := by
        rwa [← List.isPrefixOf_iff_prefix]
      subst hpre
      rw [← hpost, ← ht, List.nil_append, List.drop_left]
    · rw [if_neg hp] at h
      cases hsp : splitFirst m rest with
      | none => rw [hsp] at h; exact absurd h (by simp)
      | some p =>
        rw [hsp] at h
        simp only [Option.map_some', Option.some.injEq, Prod.mk.injEq] at h
        obtain ⟨h1, h2⟩ := h
        have := ih p.1 p.2 (by rw [hsp])
        rw [← h1, ← h2, this]
        simp

lemma takeBefore_exists (m l : List Char) :
    ∃ tail, l = takeBefore m l ++ tail := by
  unfold takeBefore
  cases hsp : splitFirst m l with
  | none => exact ⟨[], by simp⟩
  | some p =>
    refine ⟨m ++ p.2, ?_⟩
    have := splitFirst_eq_append m l p.1 p.2 hsp
    simpa using this

lemma dehyphenateAux_no_newline :
    ∀ (n : Nat) (l : List Char), '\n' ∉ l → dehyphenateAux n l = l := by
  intro n
  induction n with
  | zero => intro l _; cases l <;> rfl
  | succ n ih =>
    intro l hl
    match l with
    | [] => rfl
    | c :: rest =>
      have hrest : '\n' ∉ rest := fun h => hl (List.mem_cons_of_mem _ h)
      unfold dehyphenateAux
      split
      · dsimp only
        split
        · rename_i heq
          exfalso
          apply hl
          apply List.drop_subset _ (c :: rest)
          rw [heq]
          simp
        · rw [ih rest hrest]
      · rw [ih rest hrest]

lemma collapseNewlines_no_newline (l : List Char) (h : '\n' ∉ l) :
    collapseNewlines l = l := by
  unfold collapseNewlines
  induction l with
  | nil => rfl
  | cons c rest ih =>
    have hc : c ≠ '\n' := fun hc => h (hc ▸ List.mem_cons_self c rest)
    have hr := ih (fun hm => h (List.mem_cons_of_mem _ hm))
    simp only [List.map_cons, if_neg hc, hr]

lemma foldRecords_totals (l : List CourseRecord) :
    ∀ s : AggState,
      (foldRecords s l).total_weighted_grades
          = s.total_weighted_grades + (l.map fun r => r.grade * r.credits).sum
      ∧ (foldRecords s l).total_credits
          = s.total_credits + (l.map fun r => r.credits).sum
      ∧ (foldRecords s l).total_ects
          = s.total_ects + (l.map fun r => r.credits).sum := by
  induction l with
  | nil => intro s; simp [foldRecords]
  | cons r tl ih =>
    intro s
    have step : foldRecords s (r :: tl) = foldRecords (foldRecord s r) tl := rfl
    obtain ⟨h1, h2, h3⟩ := ih (foldRecord s r)
    rw [step]
    refine ⟨?_, ?_, ?_⟩
    · rw [h1]; simp only [foldRecord, List.map_cons, List.sum_cons]; ring
    · rw [h2]; simp only [foldRecord, List.map_cons, List.sum_cons]; ring
    · rw [h3]; simp only [foldRecord, List.map_cons, List.sum_cons]; ring

lemma acceptStep_preserves_ects_credits (s : AggState) (c : Candidate)
    (h : s.total_ects = s.total_credits) :
    (acceptStep s c).total_ects = (acceptStep s c).total_credits := by
  unfold acceptStep
  cases parseFloat c.grade with
  | none => cases parseFloat c.credits <;> exact h
  | some g =>
    cases parseFloat c.credits with
    | none => exact h
    | some cr =>
      dsimp only
      split
      · exact h
      · simp [foldRecord, h]

lemma foldl_acceptStep_preserves_ects_credits (l : List Candidate) :
    ∀ s : AggState, s.total_ects = s.total_credits →
      (l.foldl acceptStep s).total_ects = (l.foldl acceptStep s).total_credits := by
  induction l with
  | nil => intro s h; exact h
  | cons c tl ih =>
    intro s h
    exact ih (acceptStep s c) (acceptStep_preserves_ects_credits s c h)

lemma addManual_preserves_ects_credits (s : AggState) (m : ManualEntry)
    (h : s.total_ects = s.total_credits) :
    (addManual s m).total_ects = (addManual s m).total_credits := by
  simp [addManual, foldRecord, h]

lemma foldl_addManual_preserves_ects_credits (l : List ManualEntry) :
    ∀ s : AggState, s.total_ects = s.total_credits →
      (l.foldl addManual s).total_ects = (l.foldl addManual s).total_credits := by
  induction l with
  | nil => intro s h; exact h
  | cons m tl ih =>
    intro s h
    exact ih (addManual s m) (addManual_preserves_ects_credits s m h)

lemma foldl_processPage_preserves_ects_credits (pages : List (List Char)) :
    ∀ s : AggState, s.total_ects = s.total_credits →
      (pages.foldl processPage s).total_ects = (pages.foldl processPage s).total_credits := by
  induction pages with
  | nil => intro s h; exact h
  | cons p tl ih =>
    intro s h
    exact ih (processPage s p)
      (foldl_acceptStep_preserves_ects_credits _ s h)

/-! ### Claim theorems -/

/-- C1: finalize reports `europeanGpa = totalWeightedGrade / totalCredits`
and `usGpa = mapToUsScale(europeanGpa)` when `totalCredits > 0`, reports
the explicit NoData outcome when `totalCredits = 0`, and the NoData
outcome is a terminal result distinct from every numeric report; the
division only occurs inside the positivity guard, so no fault can arise. -/
theorem finalize_guarded (s : AggState) :
    (0 < s.total_credits →
      finalize s = FinalResult.report s.total_ects
        (s.total_weighted_grades / s.total_credits)
        (convert_to_us_gpa (s.total_weighted_grades / s.total_credits)))
    ∧ (s.total_credits = 0 → finalize s = FinalResult.noData)
    ∧ ∀ e g u, FinalResult.report e g u ≠ FinalResult.noData := by
  refine ⟨fun h => ?_, fun h => ?_, fun e g u => ?_⟩
  · simp [finalize, h]
  · simp [finalize, h]
  · simp

theorem finalize_guarded_witness :
    finalize ⟨85 / 2, 5, 5, []⟩
        = FinalResult.report 5 (85 / 2 / 5) (convert_to_us_gpa (85 / 2 / 5))
      ∧ finalize ⟨0, 0, 0, []⟩ = FinalResult.noData :=
  ⟨(finalize_guarded ⟨85 / 2, 5, 5, []⟩).1 (by norm_num),
   (finalize_guarded ⟨0, 0, 0, []⟩).2.1 rfl⟩

/-- C2: an auto-extracted candidate whose parsed credits value is strictly
below the threshold 5 is never accepted, regardless of its grade: the
filter step leaves the aggregate state (totals and includedCourses)
entirely unchanged. -/
theorem below_threshold_rejected (s : AggState) (c : Candidate) (q : ℚ)
    (hq : parseFloat c.credits = some q) (hlt : q < 5) :
    acceptStep s c = s := by
  cases hg : parseFloat c.grade with
  | none => simp [acceptStep, hg]
  | some g => simp [acceptStep, hg, hq, hlt]

theorem below_threshold_rejected_witness :
    parseFloat (String.toList "4") = some 4 ∧ (4 : ℚ) < 5 ∧
      acceptStep initState
        ⟨String.toList "5AAA0", String.toList "Signal Processing ",
          String.toList "01-07-2023", String.toList "8.5", String.toList "4"⟩
        = initState :=
  ⟨by decide, by norm_num,
    below_threshold_rejected initState
      ⟨String.toList "5AAA0", String.toList "Signal Processing ",
        String.toList "01-07-2023", String.toList "8.5", String.toList "4"⟩
      4 (by decide) (by norm_num)⟩

/-- C3: the fold is order-independent: folding any permutation of a finite
list of accepted records from the same starting state and finalizing
yields the same result (same europeanGpa and same usGpa), exactly, under
the exact rational arithmetic of the model. -/
theorem fold_order_independent (s : AggState) (l1 l2 : List CourseRecord)
    (h : l1.Perm l2) :
    finalize (foldRecords s l1) = finalize (foldRecords s l2) := by
  obtain ⟨a1, b1, c1⟩ := foldRecords_totals l1 s
  obtain ⟨a2, b2, c2⟩ := foldRecords_totals l2 s
  have hw : (l1.map fun r => r.grade * r.credits).sum
      = (l2.map fun r => r.grade * r.credits).sum := (h.map _).sum_eq
  have hc : (l1.map fun r => r.credits).sum
      = (l2.map fun r => r.credits).sum := (h.map _).sum_eq
  unfold finalize
  rw [a1, b1, c1, a2, b2, c2, hw, hc]

theorem fold_order_independent_witness :
    finalize (foldRecords initState
        [⟨String.toList "a", String.toList "d", 6, 5⟩,
         ⟨String.toList "b", String.toList "e", 8, 10⟩])
      = finalize (foldRecords initState
        [⟨String.toList "b", String.toList "e", 8, 10⟩,
         ⟨String.toList "a", String.toList "d", 6, 5⟩]) :=
  fold_order_independent initState
    [⟨String.toList "a", String.toList "d", 6, 5⟩,
     ⟨String.toList "b", String.toList "e", 8, 10⟩]
    [⟨String.toList "b", String.toList "e", 8, 10⟩,
     ⟨String.toList "a", String.toList "d", 6, 5⟩]
    (List.Perm.swap (⟨String.toList "b", String.toList "e", 8, 10⟩ : CourseRecord)
      (⟨String.toList "a", String.toList "d", 6, 5⟩ : CourseRecord) [])

/-- C4 counterexample: `preprocess_text` is not idempotent on the
newline-free, hyphen-break-free input `"1aaaaab"`: one pass yields
`"1aaaaa b"`, a second pass yields `"1aaaa a b"`, because the inserted
space creates a fresh greedy match of the token-spacing pattern. -/
theorem preprocess_not_idempotent :
    '\n' ∉ String.toList "1aaaaab"
    ∧ dehyphenate (String.toList "1aaaaab") = String.toList "1aaaaab"
    ∧ preprocess_text (preprocess_text (String.toList "1aaaaab"))
        ≠ preprocess_text (String.toList "1aaaaab") :=
  ⟨by decide, by decide, by decide⟩

/-- C4 (amended): `preprocess_text` is idempotent on every input that
contains no newline characters and on which the token-spacing repair finds
no match site (on such inputs the function is the identity). -/
theorem preprocess_idempotent_amended (x : List Char)
    (h1 : '\n' ∉ x) (h2 : spaceAfterCodes x = x) :
    preprocess_text (preprocess_text x) = preprocess_text x := by
  have hfix : preprocess_text x = x := by
    unfold preprocess_text dehyphenate
    rw [dehyphenateAux_no_newline x.length x h1, collapseNewlines_no_newline x h1, h2]
  rw [hfix, hfix]

theorem preprocess_idempotent_amended_witness :
    '\n' ∉ String.toList "5AAA0 Signal Processing 01-07-2023 8.5 5"
    ∧ spaceAfterCodes (String.toList "5AAA0 Signal Processing 01-07-2023 8.5 5")
        = String.toList "5AAA0 Signal Processing 01-07-2023 8.5 5"
    ∧ preprocess_text (preprocess_text
          (String.toList "5AAA0 Signal Processing 01-07-2023 8.5 5"))
        = preprocess_text (String.toList "5AAA0 Signal Processing 01-07-2023 8.5 5") :=
  ⟨by decide, by decide,
    preprocess_idempotent_amended
      (String.toList "5AAA0 Signal Processing 01-07-2023 8.5 5")
      (by decide) (by decide)⟩

/-- C5: when the marker substring is present in the normalized page text,
the text decomposes as `pre ++ marker ++ post`, the scanned region is an
initial segment of `post` (so nothing located before the marker is ever
scanned), and page processing folds exactly the candidates found in that
scanned region, so a candidate before the marker never yields an accepted
record and never contributes to the totals. -/
theorem marker_restricts_scan (t pre post : List Char)
    (h : splitFirst marker t = some (pre, post)) :
    t = pre ++ marker ++ post
    ∧ (∃ tail, post = scanRegion t ++ tail)
    ∧ ∀ s, processNormalized s t = (findAll (scanRegion t)).foldl acceptStep s := by
  refine ⟨splitFirst_eq_append marker t pre post h, ?_, fun s => rfl⟩
  unfold scanRegion
  rw [h]
  exact takeBefore_exists marker post

theorem marker_restricts_scan_witness :
    splitFirst marker (String.toList "header Grades Final examination body")
        = some (String.toList "header ", String.toList " body")
    ∧ String.toList "header Grades Final examination body"
        = String.toList "header " ++ marker ++ String.toList " body"
    ∧ ∃ tail, String.toList " body"
        = scanRegion (String.toList "header Grades Final examination body") ++ tail :=
  ⟨by decide,
    (marker_restricts_scan (String.toList "header Grades Final examination body")
      (String.toList "header ") (String.toList " body") (by decide)).1,
    (marker_restricts_scan (String.toList "header Grades Final examination body")
      (String.toList "header ") (String.toList " body") (by decide)).2.1⟩

/-- C6: `convert_to_us_gpa` realises exactly the fixed step table of the
spec: 4.0 for grades of at least 9, 3.7 on [8, 9), 3.0 on [7, 8), 2.0 on
[6, 7), 1.0 on [5.5, 6) and 0.0 below 5.5. -/
theorem us_gpa_step_table (g : ℚ) :
    (9 ≤ g → convert_to_us_gpa g = 4.0)
    ∧ (8 ≤ g → g < 9 → convert_to_us_gpa g = 3.7)
    ∧ (7 ≤ g → g < 8 → convert_to_us_gpa g = 3.0)
    ∧ (6 ≤ g → g < 7 → convert_to_us_gpa g = 2.0)
    ∧ (5.5 ≤ g → g < 6 → convert_to_us_gpa g = 1.0)
    ∧ (g < 5.5 → convert_to_us_gpa g = 0.0) := by
  refine ⟨fun h1 => ?_, fun h1 h2 => ?_, fun h1 h2 => ?_, fun h1 h2 => ?_,
    fun h1 h2 => ?_, fun h1 => ?_⟩ <;>
    unfold convert_to_us_gpa <;> split_ifs <;> first | rfl | linarith

theorem us_gpa_step_table_witness :
    (8 : ℚ) ≤ 8.5 ∧ (8.5 : ℚ) < 9 ∧ convert_to_us_gpa 8.5 = 3.7 :=
  ⟨by norm_num, by norm_num, (us_gpa_step_table 8.5).2.1 (by norm_num) (by norm_num)⟩

/-- C7: a matched candidate whose grade or credits field does not parse as
a float is silently rejected: the filter step returns the state unchanged
(no exception is modelled because the handler makes the step total), and
folding the remaining candidates proceeds as if the candidate were
absent. -/
theorem parse_failure_rejected (s : AggState) (c : Candidate)
    (h : parseFloat c.grade = none ∨ parseFloat c.credits = none) :
    acceptStep s c = s
    ∧ ∀ rest : List Candidate,
        (c :: rest).foldl acceptStep s = rest.foldl acceptStep s := by
  have h1 : acceptStep s c = s := by
    rcases h with h | h
    · simp [acceptStep, h]
    · cases hg : parseFloat c.grade <;> simp [acceptStep, hg, h]
  exact ⟨h1, fun rest => by rw [List.foldl_cons, h1]⟩

theorem parse_failure_rejected_witness :
    (parseFloat (String.toList "NA") = none ∨ parseFloat (String.toList "5") = none)
    ∧ acceptStep initState
        ⟨String.toList "5AAA0", String.toList "Signal Processing ",
          String.toList "01-07-2023", String.toList "NA", String.toList "5"⟩
        = initState :=
  ⟨Or.inl (by decide),
    (parse_failure_rejected initState
      ⟨String.toList "5AAA0", String.toList "Signal Processing ",
        String.toList "01-07-2023", String.toList "NA", String.toList "5"⟩
      (Or.inl (by decide))).1⟩

/-- C8: every manual entry is accumulated with no validation — its
grade × credits is added to totalWeightedGrade, its credits to both
totalCredits and totalEcts, and it is appended to includedCourses — for
arbitrary credit values (in particular below the 5.0 threshold), and the
run seeds the aggregate state with all manual entries before any page is
processed. -/
theorem manual_entries_trusted (s : AggState) (m : ManualEntry)
    (manual : List ManualEntry) (pages : List (List Char)) :
    (addManual s m).total_weighted_grades
        = s.total_weighted_grades + m.grade * m.credits
    ∧ (addManual s m).total_credits = s.total_credits + m.credits
    ∧ (addManual s m).total_ects = s.total_ects + m.credits
    ∧ (addManual s m).included_courses
        = s.included_courses ++ [⟨m.course, m.date, m.grade, m.credits⟩]
    ∧ runPipeline manual pages
        = pages.foldl processPage (manual.foldl addManual initState) :=
  ⟨rfl, rfl, rfl, rfl, rfl⟩

/-- C9: `convert_to_us_gpa` is monotonically non-decreasing on [0, 10]. -/
theorem us_gpa_monotone (g1 g2 : ℚ)
    (h0 : 0 ≤ g1) (h12 : g1 ≤ g2) (h10 : g2 ≤ 10) :
    convert_to_us_gpa g1 ≤ convert_to_us_gpa g2 := by
  unfold convert_to_us_gpa
  split_ifs <;> linarith

theorem us_gpa_monotone_witness :
    (0 : ℚ) ≤ 6 ∧ (6 : ℚ) ≤ 8.5 ∧ (8.5 : ℚ) ≤ 10
    ∧ convert_to_us_gpa 6 ≤ convert_to_us_gpa 8.5 :=
  ⟨by norm_num, by norm_num, by norm_num,
    us_gpa_monotone 6 8.5 (by norm_num) (by norm_num) (by norm_num)⟩

/-- C10: the invariant `totalEcts = totalCredits` holds in the initial
state, is preserved by the manual-entry injection and by the
per-candidate filter step, and therefore holds for the final state of
every run, so the reported totalEcts always equals the GPA
denominator. -/
theorem ects_equals_credits :
    initState.total_ects = initState.total_credits
    ∧ (∀ (s : AggState) (m : ManualEntry), s.total_ects = s.total_credits →
        (addManual s m).total_ects = (addManual s m).total_credits)
    ∧ (∀ (s : AggState) (c : Candidate), s.total_ects = s.total_credits →
        (acceptStep s c).total_ects = (acceptStep s c).total_credits)
    ∧ ∀ (manual : List ManualEntry) (pages : List (List Char)),
        (runPipeline manual pages).total_ects
          = (runPipeline manual pages).total_credits := by
  refine ⟨rfl, addManual_preserves_ects_credits,
    acceptStep_preserves_ects_credits, fun manual pages => ?_⟩
  exact foldl_processPage_preserves_ects_credits pages _
    (foldl_addManual_preserves_ects_credits manual initState rfl)

theorem ects_equals_credits_witness :
    (addManual initState ⟨String.toList "01 ", String.toList "01-01-2024", 10, 6⟩).total_ects
        = (addManual initState ⟨String.toList "01 ", String.toList "01-01-2024", 10, 6⟩).total_credits
    ∧ (runPipeline manual_courses []).total_ects
        = (runPipeline manual_courses []).total_credits :=
  ⟨ects_equals_credits.2.1 initState
      ⟨String.toList "01 ", String.toList "01-01-2024", 10, 6⟩ rfl,
    ects_equals_credits.2.2.2 manual_courses []⟩

end GpaCalc
